import Mathlib

/-!
Shallow embedding of the core of the genomics-surveillance app (`src/app.py`):
sequence alignment dispatch (`align_and_compare`), variant extraction
(`compare_same_length`), heuristic risk scoring (`compute_risk_score`) and the
ingestion / route glue (`parse_fasta_from_upload`, the `/analyze` handler).
Sequences are modelled as `List Char`, Python floats as `ℚ`, Python `int` as
`Int`/`Nat`.
-/

namespace Hackvotrix

/-- Kind of a variant, the `var_type` string in `compare_same_length`. -/
inductive VKind where
  | substitution
  | indel
deriving DecidableEq, Repr

/-- One entry of the `variants` list built by `compare_same_length`:
`{"pos": display_pos, "ref": r, "alt": s, "type": var_type}`. -/
structure Variant where
  pos : Nat
  ref : Char
  alt : Char
  kind : VKind
deriving DecidableEq, Repr

/-- The loop of `compare_same_length` (app.py lines 130-144), written as a
recursion over the two symbol lists with the reference-coordinate counter
`pos` as an accumulator.  `zip(ref, sample)` stops at the shorter list, which
the two base cases mirror.  Per iteration: if the symbols are equal nothing is
recorded and `pos` advances exactly when the reference symbol is not `'-'`;
otherwise a variant is recorded at `pos + 1` (an indel when either symbol is
`'-'`, else a substitution) and `pos` again advances exactly when the
reference symbol is not `'-'`.  Returns `(variants, substitutions, indels)`. -/
def compareAux : List Char → List Char → Nat → List Variant × Nat × Nat
  | r :: rs, s :: ss, pos =>
    let pos' := if r = '-' then pos else pos + 1
    if r = s then
      compareAux rs ss pos'
    else
      let t : VKind := if r = '-' ∨ s = '-' then .indel else .substitution
      let rest := compareAux rs ss pos'
      (⟨pos + 1, r, s, t⟩ :: rest.1,
       (if t = .substitution then rest.2.1 + 1 else rest.2.1),
       (if t = .indel then rest.2.2 + 1 else rest.2.2))
  | _, _, _ => ([], 0, 0)

/-- `compare_same_length(ref, sample)` from app.py: scan the pair in lockstep
starting from `pos = 0`.  (The Python `aligned` flag is never read by the
body and is omitted.) -/
def compare_same_length (ref sample : List Char) : List Variant × Nat × Nat :=
  compareAux ref sample 0

/-- Python `int(raw)` on a real value: truncation toward zero. -/
def pyTrunc (q : ℚ) : Int :=
  if q < 0 then ⌈q⌉ else ⌊q⌋

/-- The inner `while` of `compute_risk_score` (app.py line 159): starting from
the element after position index `i`, count consecutive sorted positions `p`
with `p - base ≤ 50`, stopping at the first violation. -/
def windowLen (base : Nat) : List Nat → Nat
  | [] => 0
  | p :: rest => if (p : Int) - base ≤ 50 then windowLen base rest + 1 else 0

/-- The outer `for i in range(len(positions))` loop of `compute_risk_score`
(app.py lines 157-161): the maximum, over every start index, of the length of
the window the inner `while` reaches.  The window at `p :: rest` always
contains `p` itself (the first `while` test compares `p` with `p`). -/
def maxWithin : List Nat → Nat
  | [] => 0
  | p :: rest => max (windowLen p rest + 1) (maxWithin rest)

/-- `compute_risk_score(variants, substitutions, indels, ref_len)` from
app.py lines 148-165, with Python float arithmetic modelled over `ℚ`.
`positions.sort()` is modelled by `List.insertionSort (· ≤ ·)` (ascending;
on natural numbers any ascending sort yields the same list). -/
def compute_risk_score (variants : List Variant) (substitutions indels ref_len : Nat) : Int :=
  if ref_len = 0 then 0
  else
    let base : ℚ := ((substitutions : ℚ) + 2 * indels) / (max 1 ref_len : Nat)
    let positions := variants.map Variant.pos
    let cluster_factor : ℚ :=
      if 2 ≤ positions.length then
        let sorted := positions.insertionSort (· ≤ ·)
        let max_within := maxWithin sorted
        1 + (max_within : ℚ) / (max 1 positions.length : Nat)
      else 1
    let raw := base * cluster_factor * 200
    max 0 (min 100 (pyTrunc raw))

/-- Modelled from the spec: the dynamic-programming score of the external
alignment routine `Bio.pairwise2.align.globalxx` (a library function, not part
of this repository's source).  Per spec §4.1 it is "a match-counting dynamic
program": a match advances diagonally with reward 1, mismatch/gap steps have
reward 0, and the optimum is the maximum total reward. -/
def nwScore : List Char → List Char → Nat
  | [], _ => 0
  | _ :: _, [] => 0
  | r :: rs, s :: ss =>
    max ((if r = s then 1 else 0) + nwScore rs ss)
      (max (nwScore (r :: rs) ss) (nwScore rs (s :: ss)))
termination_by a b => a.length + b.length

/-- Modelled from the spec: the external aligner `pairwise2.align.globalxx`
(library code, not in this repository's source).  Spec §4.1: a global
alignment maximizing the number of agreeing positions, gap markers inserted on
the non-matching stretches, with a fixed deterministic tie-break (spec §9
leaves the concrete tie-break open; this model prefers, in order, the
diagonal step, then a gap in the reference).  Returns
`(aligned_ref, aligned_sample)`. -/
def globalxx : List Char → List Char → List Char × List Char
  | [], [] => ([], [])
  | [], s :: ss =>
    let p := globalxx [] ss
    ('-' :: p.1, s :: p.2)
  | r :: rs, [] =>
    let p := globalxx rs []
    (r :: p.1, '-' :: p.2)
  | r :: rs, s :: ss =>
    let d := (if r = s then 1 else 0) + nwScore rs ss
    let u := nwScore (r :: rs) ss
    let l := nwScore rs (s :: ss)
    if u ≤ d ∧ l ≤ d then
      let p := globalxx rs ss
      (r :: p.1, s :: p.2)
    else if l ≤ u then
      let p := globalxx (r :: rs) ss
      ('-' :: p.1, s :: p.2)
    else
      let p := globalxx rs (s :: ss)
      (r :: p.1, '-' :: p.2)
termination_by a b => a.length + b.length

/-- The alignment step of `align_and_compare` (app.py lines 115-122): equal
input lengths are passed through unchanged, otherwise the general aligner
produces the pair. -/
def alignPair (ref sample : List Char) : List Char × List Char :=
  if ref.length = sample.length then (ref, sample) else globalxx ref sample

/-- `align_and_compare(ref_seq, sample_seq)` from app.py: compare directly on
equal lengths, otherwise align first. -/
def align_and_compare (ref sample : List Char) : List Variant × Nat × Nat :=
  if ref.length = sample.length then compare_same_length ref sample
  else
    let aln := globalxx ref sample
    compare_same_length aln.1 aln.2

/-- `align_and_compare` instrumented with a flag recording whether the general
dynamic-programming aligner (`pairwise2.align.globalxx` in the source) was
invoked on this call. -/
def align_and_compare_traced (ref sample : List Char) :
    (List Variant × Nat × Nat) × Bool :=
  if ref.length = sample.length then (compare_same_length ref sample, false)
  else
    let aln := globalxx ref sample
    (compare_same_length aln.1 aln.2, true)

/-- Python whitespace for `str.strip` / `str.split`: space, tab, newline,
carriage return, vertical tab, form feed. -/
def pyIsSpace (c : Char) : Bool :=
  c == ' ' || c == '\t' || c == '\n' || c == '\r' ||
    c == Char.ofNat 11 || c == Char.ofNat 12

/-- Python `content.strip()`: remove leading and trailing whitespace. -/
def pyStrip (l : List Char) : List Char :=
  ((l.dropWhile pyIsSpace).reverse.dropWhile pyIsSpace).reverse

/-- Python `"".join(content.split()).upper()` (the non-FASTA fallback of
`parse_fasta_from_upload`): delete every whitespace character and
upper-case the rest. -/
def joinSplitUpper (content : List Char) : List Char :=
  (content.filter (fun c => ! pyIsSpace c)).map Char.toUpper

/-- Split a character list at newline characters. -/
def splitLines : List Char → List (List Char)
  | [] => [[]]
  | c :: cs =>
    if c = '\n' then [] :: splitLines cs
    else
      match splitLines cs with
      | [] => [[c]]
      | l :: ls => (c :: l) :: ls

/-- Modelled from the spec: FASTA-record extraction is delegated to the
external Biopython library (`SeqIO.parse(handle, "fasta")` followed by
`recs[0].seq`), which is not part of this repository's source.  The first
record's sequence is the concatenation of the stripped line contents that
follow the first header line (the leading `>` line) up to the next header
line; letter case is preserved. -/
def fastaFirstRecord (content : List Char) : List Char :=
  let body := (splitLines content).drop 1
  ((body.takeWhile (fun l => l.head? ≠ some '>')).map pyStrip).flatten

/-- `parse_fasta_from_upload` (app.py lines 84-112) on the pasted-text path:
strip the raw text; empty means no sequence (`None`); text starting with `>`
is parsed as FASTA (first record, case preserved); anything else falls back
to whitespace-removal plus upper-casing. -/
def parse_fasta_from_upload (text : List Char) : Option (List Char) :=
  let content := pyStrip text
  if content = [] then none
  else if content.head? = some '>' then some (fastaFirstRecord content)
  else some (joinSplitUpper content)

/-- The `summary` dictionary built by the `/analyze` handler. -/
structure Summary where
  total_variants : Nat
  substitutions : Nat
  indels : Nat
  reference_length : Nat
  risk_score : Int
deriving DecidableEq, Repr

/-- The JSON response of the `/analyze` handler: either the success structure
`{variants, summary}` or the single-field `{error: message}` structure. -/
inductive Response where
  | ok : List Variant → Summary → Response
  | error : String → Response
deriving DecidableEq, Repr

/-- The success path of the `/analyze` handler (app.py lines 187-199), i.e.
the spec's core `analyze(reference, sample)` entry point on two already-parsed
sequences: align and compare, score, assemble the summary. -/
def analyzeCore (ref sample : List Char) : List Variant × Summary :=
  let c := align_and_compare ref sample
  let ref_len := ref.length
  let score := compute_risk_score c.1 c.2.1 c.2.2 ref_len
  (c.1, ⟨c.1.length, c.2.1, c.2.2, ref_len, score⟩)

/-- The `/analyze` route handler (app.py lines 174-199) on pasted-text
requests: parse both inputs; if either parse yields `None` answer
`{error: "Reference or sample sequence missing."}`, otherwise run the core
pipeline and answer `{variants, summary}`. -/
def analyze (refText sampleText : List Char) : Response :=
  match parse_fasta_from_upload refText, parse_fasta_from_upload sampleText with
  | some r, some s =>
    let c := analyzeCore r s
    .ok c.1 c.2
  | _, _ => .error "Reference or sample sequence missing."

/-! Spec-side definitions, written from the specification's words, to be
compared with the source-embedded functions above. -/

/-- State of the spec's variant-extraction scan (§4.2): the reference
coordinate counter, the variants recorded so far, and the two counters. -/
structure ExtState where
  pos : Nat
  variants : List Variant
  substitutions : Nat
  indels : Nat
deriving DecidableEq, Repr

/-- One index of the spec's lockstep scan (§4.2), exactly as worded: if the
two symbols are equal record nothing; else if either symbol is a gap marker
record an `Indel` at `pos + 1`; else record a `Substitution` at `pos + 1`;
then `pos` is incremented exactly when the reference symbol at this index is
not a gap, after any variant for the index has been recorded (the indel
position is `pos + 1` even when the reference symbol itself is the gap). -/
def specStep (st : ExtState) (p : Char × Char) : ExtState :=
  let st1 :=
    if p.1 = p.2 then st
    else if p.1 = '-' ∨ p.2 = '-' then
      { st with variants := st.variants ++ [⟨st.pos + 1, p.1, p.2, .indel⟩],
                indels := st.indels + 1 }
    else
      { st with variants := st.variants ++ [⟨st.pos + 1, p.1, p.2, .substitution⟩],
                substitutions := st.substitutions + 1 }
  if p.1 = '-' then st1 else { st1 with pos := st1.pos + 1 }

/-- The spec's variant extractor (§4.2): scan the aligned pair in lockstep by
index with `pos` initialized to 0. -/
def specExtract (ref sample : List Char) : List Variant × Nat × Nat :=
  let fin := (ref.zip sample).foldl specStep ⟨0, [], 0, 0⟩
  (fin.variants, fin.substitutions, fin.indels)

/-- The spec's clustering window (C2 wording): for a start position `p` of
the sorted list, the number of variants in the whole remaining sorted list
whose position lies within 50 units of `p` — "the number of variants whose
sorted positions fall within the window", with no early stopping. -/
def specWindow (p : Nat) (rest : List Nat) : Nat :=
  rest.countP (fun (q : Nat) => decide ((q : Int) - (p : Int) ≤ 50)) + 1

/-- The spec's maximum window count: the maximum of `specWindow` over every
start position of the sorted list. -/
def specMaxWindow : List Nat → Nat
  | [] => 0
  | p :: rest => max (specWindow p rest) (specMaxWindow rest)

/-- The spec's risk score (C2 wording): 0 on an empty reference; otherwise
`base = (substitutions + 2*indels) / max(1, referenceLength)`, the clustering
factor is 1 for fewer than two variants and otherwise
`1 + maxWindowCount / totalVariantCount`, `raw = base * clusterFactor * 200`,
and the result is `raw` truncated to an integer and clamped to `[0, 100]`. -/
def specRiskScore (variants : List Variant) (substitutions indels refLen : Nat) : Int :=
  if refLen = 0 then 0
  else
    let base : ℚ := ((substitutions : ℚ) + 2 * indels) / (max 1 refLen : Nat)
    let total := variants.length
    let clusterFactor : ℚ :=
      if total < 2 then 1
      else
        let sorted := (variants.map Variant.pos).insertionSort (· ≤ ·)
        1 + (specMaxWindow sorted : ℚ) / total
    let raw := base * clusterFactor * 200
    max 0 (min 100 (pyTrunc raw))

/-- A variant is well classified: it is a substitution with two unequal
non-gap symbols, or an indel with exactly one gap symbol. -/
def wellClassified (v : Variant) : Prop :=
  (v.kind = .substitution ∧ v.ref ≠ '-' ∧ v.alt ≠ '-' ∧ v.ref ≠ v.alt) ∨
    (v.kind = .indel ∧ ((v.ref = '-' ∧ v.alt ≠ '-') ∨ (v.ref ≠ '-' ∧ v.alt = '-')))

/-- Number of non-gap symbols of an aligned sequence (for an aligned
reference this is the original reference length). -/
def gapFree (l : List Char) : Nat :=
  (l.filter (fun c => !(c == '-'))).length

example :
    compare_same_length "ATGC".toList "ATCC".toList =
      ([⟨3, 'G', 'C', .substitution⟩], 1, 0) := by decide

example :
    compare_same_length "AT-GC".toList "ATTGC".toList =
      ([⟨3, '-', 'T', .indel⟩], 0, 1) := by decide

example :
    analyze " ".toList "ATGC".toList =
      .error "Reference or sample sequence missing." := by decide

example :
    parse_fasta_from_upload "atg c".toList = some "ATGC".toList := by decide

example :
    parse_fasta_from_upload ">r\nAT\nGC\n>next\nTT".toList = some "ATGC".toList := by
  decide

/-! Lemmas about the variant extractor. -/

lemma compareAux_nil_left (ss : List Char) (pos : Nat) :
    compareAux [] ss pos = ([], 0, 0) := by
  cases ss <;> rfl

lemma compareAux_nil_right (rs : List Char) (pos : Nat) :
    compareAux rs [] pos = ([], 0, 0) := by
  cases rs <;> rfl

lemma compareAux_cons_eq (r s : Char) (rs ss : List Char) (pos : Nat) (h : r = s) :
    compareAux (r :: rs) (s :: ss) pos =
      compareAux rs ss (if r = '-' then pos else pos + 1) := by
  simp [compareAux, h]

lemma compareAux_cons_indel (r s : Char) (rs ss : List Char) (pos : Nat)
    (h : ¬ r = s) (hg : r = '-' ∨ s = '-') :
    compareAux (r :: rs) (s :: ss) pos =
      (⟨pos + 1, r, s, .indel⟩ :: (compareAux rs ss (if r = '-' then pos else pos + 1)).1,
       (compareAux rs ss (if r = '-' then pos else pos + 1)).2.1,
       (compareAux rs ss (if r = '-' then pos else pos + 1)).2.2 + 1) := by
  simp [compareAux, h, hg]

lemma compareAux_cons_subst (r s : Char) (rs ss : List Char) (pos : Nat)
    (h : ¬ r = s) (hg1 : ¬ r = '-') (hg2 : ¬ s = '-') :
    compareAux (r :: rs) (s :: ss) pos =
      (⟨pos + 1, r, s, .substitution⟩ :: (compareAux rs ss (pos + 1)).1,
       (compareAux rs ss (pos + 1)).2.1 + 1,
       (compareAux rs ss (pos + 1)).2.2) := by
  simp [compareAux, h, hg1, hg2]

lemma gapFree_cons (r : Char) (rs : List Char) :
    gapFree (r :: rs) = (if r = '-' then 0 else 1) + gapFree rs := by
  by_cases hr : r = '-'
  · simp [gapFree, hr]
  · simp [gapFree, hr]
    omega

lemma compareAux_classified (rs : List Char) :
    ∀ (ss : List Char) (pos : Nat),
      (∀ v ∈ (compareAux rs ss pos).1, wellClassified v) ∧
        (compareAux rs ss pos).2.1 + (compareAux rs ss pos).2.2 =
          (compareAux rs ss pos).1.length := by
  induction rs with
  | nil =>
    intro ss pos
    simp [compareAux_nil_left]
  | cons r rs ih =>
    intro ss pos
    cases ss with
    | nil => simp [compareAux_nil_right]
    | cons s ss =>
      by_cases h : r = s
      · rw [compareAux_cons_eq r s rs ss pos h]
        exact ih ss _
      · obtain ⟨ih1, ih2⟩ := ih ss (if r = '-' then pos else pos + 1)
        by_cases hg : r = '-' ∨ s = '-'
        · rw [compareAux_cons_indel r s rs ss pos h hg]
          refine ⟨?_, ?_⟩
          · intro v hv
            simp only [List.mem_cons] at hv
            rcases hv with rfl | hv
            · right
              refine ⟨rfl, ?_⟩
              rcases hg with rfl | rfl
              · exact Or.inl ⟨rfl, fun hs => h hs.symm⟩
              · exact Or.inr ⟨fun hr => h hr, rfl⟩
            · exact ih1 v hv
          · simp only [List.length_cons]
            omega
        · push_neg at hg
          rw [if_neg hg.1] at ih1 ih2
          rw [compareAux_cons_subst r s rs ss pos h hg.1 hg.2]
          refine ⟨?_, ?_⟩
          · intro v hv
            simp only [List.mem_cons] at hv
            rcases hv with rfl | hv
            · exact Or.inl ⟨rfl, hg.1, hg.2, h⟩
            · exact ih1 v hv
          · simp only [List.length_cons]
            omega

lemma compareAux_pos_bounds (rs : List Char) :
    ∀ (ss : List Char) (pos : Nat),
      ∀ v ∈ (compareAux rs ss pos).1, pos + 1 ≤ v.pos ∧ v.pos ≤ pos + gapFree rs + 1 := by
  induction rs with
  | nil => intro ss pos v hv; simp [compareAux_nil_left] at hv
  | cons r rs ih =>
    intro ss pos v hv
    cases ss with
    | nil => simp [compareAux_nil_right] at hv
    | cons s ss =>
      rw [gapFree_cons]
      by_cases h : r = s
      · rw [compareAux_cons_eq r s rs ss pos h] at hv
        have := ih ss (if r = '-' then pos else pos + 1) v hv
        by_cases hr : r = '-' <;> simp only [hr, if_pos, if_neg, if_true, if_false] at this ⊢ <;>
          omega
      · by_cases hg : r = '-' ∨ s = '-'
        · rw [compareAux_cons_indel r s rs ss pos h hg] at hv
          simp only [List.mem_cons] at hv
          rcases hv with rfl | hv
          · simp only []
            split <;> omega
          · have := ih ss (if r = '-' then pos else pos + 1) v hv
            by_cases hr : r = '-' <;>
              simp only [hr, if_pos, if_neg, if_true, if_false] at this ⊢ <;> omega
        · push_neg at hg
          rw [compareAux_cons_subst r s rs ss pos h hg.1 hg.2] at hv
          simp only [List.mem_cons] at hv
          rcases hv with rfl | hv
          · simp only []
            split <;> omega
          · have := ih ss (pos + 1) v hv
            rw [if_neg hg.1]
            omega

lemma compareAux_chain (rs : List Char) :
    ∀ (ss : List Char) (pos : Nat),
      List.Chain' (· ≤ ·) ((compareAux rs ss pos).1.map Variant.pos) := by
  induction rs with
  | nil => intro ss pos; simp [compareAux_nil_left]
  | cons r rs ih =>
    intro ss pos
    cases ss with
    | nil => simp [compareAux_nil_right]
    | cons s ss =>
      have tailChain : ∀ pos', pos ≤ pos' →
          List.Chain' (· ≤ ·)
            ((pos + 1) :: (compareAux rs ss pos').1.map Variant.pos) := by
        intro pos' hpp
        rw [List.chain'_cons']
        refine ⟨?_, ih ss pos'⟩
        intro y hy
        have hmem : y ∈ (compareAux rs ss pos').1.map Variant.pos :=
          List.mem_of_mem_head? hy
        obtain ⟨w, hw, rfl⟩ := List.mem_map.mp hmem
        have := compareAux_pos_bounds rs ss pos' w hw
        omega
      by_cases h : r = s
      · rw [compareAux_cons_eq r s rs ss pos h]
        exact ih ss _
      · by_cases hg : r = '-' ∨ s = '-'
        · rw [compareAux_cons_indel r s rs ss pos h hg]
          simp only [List.map_cons]
          exact tailChain _ (by split <;> omega)
        · push_neg at hg
          rw [compareAux_cons_subst r s rs ss pos h hg.1 hg.2]
          simp only [List.map_cons]
          exact tailChain _ (by omega)

lemma compareAux_self (l : List Char) : ∀ pos, compareAux l l pos = ([], 0, 0) := by
  induction l with
  | nil => intro pos; simp [compareAux_nil_left]
  | cons c cs ih =>
    intro pos
    rw [compareAux_cons_eq c c cs cs pos rfl]
    exact ih _

lemma specStep_eq_sym (r s : Char) (pos : Nat) (acc : List Variant) (su ind : Nat)
    (h : r = s) :
    specStep ⟨pos, acc, su, ind⟩ (r, s) =
      ⟨if r = '-' then pos else pos + 1, acc, su, ind⟩ := by
  subst h
  by_cases hr : r = '-' <;> simp [specStep, hr]

lemma specStep_indel (r s : Char) (pos : Nat) (acc : List Variant) (su ind : Nat)
    (h : ¬ r = s) (hg : r = '-' ∨ s = '-') :
    specStep ⟨pos, acc, su, ind⟩ (r, s) =
      ⟨if r = '-' then pos else pos + 1,
       acc ++ [⟨pos + 1, r, s, .indel⟩], su, ind + 1⟩ := by
  rcases hg with rfl | rfl
  · simp [specStep, h]
  · have hr : ¬ r = '-' := h
    simp [specStep, h, hr]

lemma specStep_subst (r s : Char) (pos : Nat) (acc : List Variant) (su ind : Nat)
    (h : ¬ r = s) (hg1 : ¬ r = '-') (hg2 : ¬ s = '-') :
    specStep ⟨pos, acc, su, ind⟩ (r, s) =
      ⟨pos + 1, acc ++ [⟨pos + 1, r, s, .substitution⟩], su + 1, ind⟩ := by
  simp [specStep, h, hg1, hg2]

lemma foldl_specStep_eq (rs : List Char) :
    ∀ (ss : List Char) (pos : Nat) (acc : List Variant) (su ind : Nat),
      (rs.zip ss).foldl specStep ⟨pos, acc, su, ind⟩ =
        ⟨pos + (rs.zip ss).countP (fun p => !(p.1 == '-')),
         acc ++ (compareAux rs ss pos).1,
         su + (compareAux rs ss pos).2.1,
         ind + (compareAux rs ss pos).2.2⟩ := by
  induction rs with
  | nil =>
    intro ss pos acc su ind
    simp [compareAux_nil_left]
  | cons r rs ih =>
    intro ss pos acc su ind
    cases ss with
    | nil => simp [compareAux_nil_right]
    | cons s ss =>
      rw [List.zip_cons_cons, List.foldl_cons, List.countP_cons]
      by_cases h : r = s
      · rw [specStep_eq_sym r s pos acc su ind h, ih, compareAux_cons_eq r s rs ss pos h]
        congr 1
        by_cases hr : r = '-'
        · simp [hr]
        · simp [hr]
          omega
      · by_cases hg : r = '-' ∨ s = '-'
        · rw [specStep_indel r s pos acc su ind h hg, ih,
            compareAux_cons_indel r s rs ss pos h hg]
          congr 1
          · by_cases hr : r = '-'
            · simp [hr]
            · simp [hr]
              omega
          · simp
          · simp_arith
        · push_neg at hg
          rw [specStep_subst r s pos acc su ind h hg.1 hg.2, ih,
            compareAux_cons_subst r s rs ss pos h hg.1 hg.2]
          congr 1
          · simp [hg.1]
            omega
          · simp
          · simp_arith

lemma compute_risk_score_no_variants (L : Nat) :
    compute_risk_score [] 0 0 L = 0 := by
  unfold compute_risk_score
  by_cases hL : L = 0
  · rw [if_pos hL]
  · rw [if_neg hL]
    norm_num [pyTrunc]

/-! Lemmas about the risk scorer. -/

lemma windowLen_eq_countP (p : Nat) (rest : List Nat)
    (hs : List.Pairwise (· ≤ ·) (p :: rest)) :
    windowLen p rest =
      rest.countP (fun (q : Nat) => decide ((q : Int) - (p : Int) ≤ 50)) := by
  induction rest with
  | nil => simp [windowLen]
  | cons q rest ih =>
    rw [List.pairwise_cons] at hs
    obtain ⟨hp, hq_rest⟩ := hs
    rw [List.pairwise_cons] at hq_rest
    obtain ⟨hq, hrest⟩ := hq_rest
    by_cases hw : (q : Int) - p ≤ 50
    · rw [windowLen, if_pos hw, List.countP_cons, if_pos (by simpa using hw)]
      rw [ih (List.pairwise_cons.mpr ⟨fun x hx => hp x (List.mem_cons_of_mem q hx), hrest⟩)]
    · rw [windowLen, if_neg hw, List.countP_cons, if_neg (by simpa using hw)]
      rw [Nat.add_zero, List.countP_eq_zero.mpr]
      intro x hx
      have hqx : q ≤ x := hq x hx
      simp only [decide_eq_true_eq]
      omega

lemma maxWithin_eq_spec (l : List Nat) (hs : List.Pairwise (· ≤ ·) l) :
    maxWithin l = specMaxWindow l := by
  induction l with
  | nil => rfl
  | cons p rest ih =>
    rw [maxWithin, specMaxWindow, specWindow, ← windowLen_eq_countP p rest hs]
    rw [List.pairwise_cons] at hs
    rw [ih hs.2]

lemma max_one_eq (n : Nat) (h : 2 ≤ n) : (max 1 n : Nat) = n := by omega

/-! Lemmas about the aligner model. -/

lemma globalxx_cons_cons (r s : Char) (rs ss : List Char) :
    globalxx (r :: rs) (s :: ss) =
      if nwScore (r :: rs) ss ≤ (if r = s then 1 else 0) + nwScore rs ss ∧
          nwScore rs (s :: ss) ≤ (if r = s then 1 else 0) + nwScore rs ss then
        (r :: (globalxx rs ss).1, s :: (globalxx rs ss).2)
      else if nwScore rs (s :: ss) ≤ nwScore (r :: rs) ss then
        ('-' :: (globalxx (r :: rs) ss).1, s :: (globalxx (r :: rs) ss).2)
      else
        (r :: (globalxx rs (s :: ss)).1, '-' :: (globalxx rs (s :: ss)).2) := by
  rw [globalxx]

lemma globalxx_length_aux (n : Nat) :
    ∀ (a b : List Char), a.length + b.length ≤ n →
      (globalxx a b).1.length = (globalxx a b).2.length ∧
        max a.length b.length ≤ (globalxx a b).1.length := by
  induction n with
  | zero =>
    intro a b h
    cases a with
    | cons r rs => simp at h
    | nil =>
      cases b with
      | cons s ss => simp at h
      | nil => rw [globalxx]; simp
  | succ n ih =>
    intro a b h
    cases a with
    | nil =>
      cases b with
      | nil => rw [globalxx]; simp
      | cons s ss =>
        rw [globalxx]
        have := ih [] ss (by simp at h ⊢; omega)
        simp at this ⊢
        omega
    | cons r rs =>
      cases b with
      | nil =>
        rw [globalxx]
        have := ih rs [] (by simp at h ⊢; omega)
        simp at this ⊢
        omega
      | cons s ss =>
        simp only [List.length_cons] at h
        have h1 := ih rs ss (by omega)
        have h2 := ih (r :: rs) ss (by simp only [List.length_cons]; omega)
        have h3 := ih rs (s :: ss) (by simp only [List.length_cons]; omega)
        simp only [List.length_cons] at h1 h2 h3
        rw [globalxx_cons_cons]
        generalize (if r = s then 1 else 0) = m
        split
        · simp only [List.length_cons]
          omega
        · split
          · simp only [List.length_cons]
            omega
          · simp only [List.length_cons]
            omega

lemma globalxx_length (a b : List Char) :
    (globalxx a b).1.length = (globalxx a b).2.length ∧
      max a.length b.length ≤ (globalxx a b).1.length :=
  globalxx_length_aux (a.length + b.length) a b le_rfl

/-! Lemmas about ingestion. -/

lemma pyStrip_all_space (l : List Char) (h : ∀ c ∈ l, pyIsSpace c) :
    pyStrip l = [] := by
  unfold pyStrip
  rw [List.dropWhile_eq_nil_iff.mpr h]
  simp

lemma parse_none_of_space (l : List Char) (h : ∀ c ∈ l, pyIsSpace c) :
    parse_fasta_from_upload l = none := by
  unfold parse_fasta_from_upload
  rw [pyStrip_all_space l h]
  simp

/-! Decomposition of the extractor over a trailing block. -/

lemma compareAux_append_fst (a : List Char) :
    ∀ (b g c : List Char) (pos : Nat), a.length = b.length →
      (compareAux (a ++ g) (b ++ c) pos).1 =
        (compareAux a b pos).1 ++ (compareAux g c (pos + gapFree a)).1 := by
  induction a with
  | nil =>
    intro b g c pos h
    have hb : b = [] := List.eq_nil_of_length_eq_zero h.symm
    subst hb
    simp [compareAux_nil_left, gapFree]
  | cons r a ih =>
    intro b g c pos h
    cases b with
    | nil => simp at h
    | cons s bs =>
      simp only [List.length_cons] at h
      have hl : a.length = bs.length := by omega
      have hp : (if r = '-' then pos else pos + 1) + gapFree a = pos + gapFree (r :: a) := by
        rw [gapFree_cons]
        split <;> omega
      rw [List.cons_append, List.cons_append]
      by_cases hrs : r = s
      · rw [compareAux_cons_eq r s (a ++ g) (bs ++ c) pos hrs,
          compareAux_cons_eq r s a bs pos hrs, ih bs g c _ hl, hp]
      · by_cases hg : r = '-' ∨ s = '-'
        · rw [compareAux_cons_indel r s (a ++ g) (bs ++ c) pos hrs hg,
            compareAux_cons_indel r s a bs pos hrs hg]
          simp only [List.cons_append]
          rw [ih bs g c _ hl, hp]
        · push_neg at hg
          rw [compareAux_cons_subst r s (a ++ g) (bs ++ c) pos hrs hg.1 hg.2,
            compareAux_cons_subst r s a bs pos hrs hg.1 hg.2]
          simp only [List.cons_append]
          rw [ih bs g c _ hl]
          rw [if_neg hg.1] at hp
          rw [hp]

lemma compareAux_trailing_gaps (g : List Char) :
    ∀ (c : List Char) (pos : Nat), (∀ ch ∈ g, ch = '-') →
      ∀ v ∈ (compareAux g c pos).1, v.pos = pos + 1 := by
  induction g with
  | nil =>
    intro c pos _ v hv
    simp [compareAux_nil_left] at hv
  | cons r g ih =>
    intro c pos h v hv
    have hr : r = '-' := h r (List.mem_cons_self r g)
    have htail : ∀ ch ∈ g, ch = '-' := fun ch hch => h ch (List.mem_cons_of_mem r hch)
    cases c with
    | nil => simp [compareAux_nil_right] at hv
    | cons s cs =>
      by_cases hrs : r = s
      · rw [compareAux_cons_eq r s g cs pos hrs, if_pos hr] at hv
        exact ih cs pos htail v hv
      · rw [compareAux_cons_indel r s g cs pos hrs (Or.inl hr), if_pos hr] at hv
        rcases List.mem_cons.mp hv with rfl | hv
        · rfl
        · exact ih cs pos htail v hv

lemma gapFree_append_gaps (r0 g : List Char) (hg : ∀ ch ∈ g, ch = '-') :
    gapFree (r0 ++ g) = gapFree r0 := by
  unfold gapFree
  rw [List.filter_append]
  have : g.filter (fun c => !(c == '-')) = [] := by
    rw [List.filter_eq_nil_iff]
    intro a ha
    simpa using hg a ha
  rw [this]
  simp

/-! The claims. -/

/-- C1: on an aligned pair of equal-length sequences the variant extractor
behaves exactly as the specification's lockstep scan describes: a
reference-coordinate counter `pos` starts at 0; equal symbols record nothing;
an unequal pair with a gap marker records an indel at `pos + 1`; an unequal
gap-free pair records a substitution at `pos + 1`; `pos` is incremented
exactly when the reference symbol is not a gap, after recording (the indel
position is `pos + 1` even when the reference symbol itself is the gap). -/
theorem extractor_matches_spec_scan (ref sample : List Char)
    (_hlen : ref.length = sample.length) :
    compare_same_length ref sample = specExtract ref sample := by
  unfold compare_same_length specExtract
  rw [foldl_specStep_eq]
  simp

/-- Witness for C1 at a concrete aligned pair containing a gap. -/
theorem extractor_matches_spec_scan_witness :
    "AT-GC".toList.length = "ATTGC".toList.length ∧
      compare_same_length "AT-GC".toList "ATTGC".toList =
        specExtract "AT-GC".toList "ATTGC".toList :=
  ⟨by decide, extractor_matches_spec_scan "AT-GC".toList "ATTGC".toList (by decide)⟩

/-- C2: the risk score is computed exactly as the specification states: 0
for an empty reference, otherwise `base = (substitutions + 2*indels) /
max(1, referenceLength)`, a clustering factor that is 1 for fewer than two
variants and otherwise `1 + maxWindowCount / totalVariantCount` (maximum
number of variants whose sorted positions fall within a 50-unit window),
`raw = base * clusterFactor * 200`, and the result truncated to an integer
and clamped to `[0, 100]`. -/
theorem risk_score_matches_spec (variants : List Variant)
    (substitutions indels refLen : Nat) :
    compute_risk_score variants substitutions indels refLen =
      specRiskScore variants substitutions indels refLen := by
  unfold compute_risk_score specRiskScore
  by_cases h0 : refLen = 0
  · rw [if_pos h0, if_pos h0]
  · rw [if_neg h0, if_neg h0]
    dsimp only
    rw [List.length_map]
    by_cases h2 : 2 ≤ variants.length
    · rw [if_pos h2, if_neg (by omega)]
      have hsorted : List.Pairwise (· ≤ ·)
          ((variants.map Variant.pos).insertionSort (· ≤ ·)) :=
        List.sorted_insertionSort (· ≤ ·) (variants.map Variant.pos)
      rw [maxWithin_eq_spec _ hsorted, max_one_eq variants.length h2]
    · rw [if_neg h2, if_pos (by omega)]

/-- C3: on equal-length inputs the aligner returns the two sequences
unchanged (identity alignment, no gap markers inserted) and the general
dynamic-programming alignment routine is not invoked. -/
theorem equal_length_skips_alignment (ref sample : List Char)
    (h : ref.length = sample.length) :
    alignPair ref sample = (ref, sample) ∧
      (align_and_compare_traced ref sample).2 = false := by
  constructor
  · unfold alignPair
    rw [if_pos h]
  · unfold align_and_compare_traced
    rw [if_pos h]

/-- Witness for C3 at a concrete equal-length pair. -/
theorem equal_length_skips_alignment_witness :
    "ATGC".toList.length = "ATCC".toList.length ∧
      (alignPair "ATGC".toList "ATCC".toList = ("ATGC".toList, "ATCC".toList) ∧
        (align_and_compare_traced "ATGC".toList "ATCC".toList).2 = false) :=
  ⟨by decide, equal_length_skips_alignment "ATGC".toList "ATCC".toList (by decide)⟩

/-- C4: for every pair of input sequences, the aligner's output is a pair of
equal-length sequences at least as long as each input. -/
theorem aligner_length_invariant (ref sample : List Char) :
    (alignPair ref sample).1.length = (alignPair ref sample).2.length ∧
      max ref.length sample.length ≤ (alignPair ref sample).1.length := by
  unfold alignPair
  by_cases h : ref.length = sample.length
  · rw [if_pos h]
    refine ⟨h, ?_⟩
    simp [h]
  · rw [if_neg h]
    exact globalxx_length ref sample

/-- C5: a request in which either sequence is empty or whitespace-only is
answered with exactly `{error: "Reference or sample sequence missing."}`;
no variants or summary are produced. -/
theorem missing_input_error (refText sampleText : List Char)
    (h : (∀ c ∈ refText, pyIsSpace c) ∨ (∀ c ∈ sampleText, pyIsSpace c)) :
    analyze refText sampleText = .error "Reference or sample sequence missing." := by
  unfold analyze
  rcases h with h | h
  · rw [parse_none_of_space refText h]
  · rw [parse_none_of_space sampleText h]
    cases parse_fasta_from_upload refText <;> rfl

/-- Witness for C5 on a whitespace-only reference. -/
theorem missing_input_error_witness :
    (∀ c ∈ " \t".toList, pyIsSpace c) ∧
      analyze " \t".toList "ATGC".toList =
        .error "Reference or sample sequence missing." :=
  ⟨by decide, missing_input_error " \t".toList "ATGC".toList (Or.inl (by decide))⟩

/-- C6: analysing any sequence against itself yields no variants, zero
substitutions, zero indels and risk score 0. -/
theorem analyze_self_is_clean (S : List Char) :
    analyzeCore S S = ([], ⟨0, 0, 0, S.length, 0⟩) := by
  unfold analyzeCore align_and_compare
  rw [if_pos rfl]
  unfold compare_same_length
  rw [compareAux_self]
  simp [compute_risk_score_no_variants]

/-- C7: every emitted variant is exactly one of substitution (both symbols
non-gap and unequal) or indel (exactly one symbol is the gap marker), and
substitutions + indels equals the number of variants, which is the
`total_variants` of the analysis summary. -/
theorem variant_classification (ref sample : List Char) :
    (∀ v ∈ (compare_same_length ref sample).1, wellClassified v) ∧
      (compare_same_length ref sample).2.1 + (compare_same_length ref sample).2.2 =
        (compare_same_length ref sample).1.length ∧
      (analyzeCore ref sample).2.substitutions + (analyzeCore ref sample).2.indels =
        (analyzeCore ref sample).2.total_variants := by
  refine ⟨(compareAux_classified ref sample 0).1, (compareAux_classified ref sample 0).2, ?_⟩
  unfold analyzeCore align_and_compare
  by_cases h : ref.length = sample.length
  · rw [if_pos h]
    exact (compareAux_classified ref sample 0).2
  · rw [if_neg h]
    exact (compareAux_classified (globalxx ref sample).1 (globalxx ref sample).2 0).2

/-- C8: variant positions are non-decreasing in emission order. -/
theorem positions_monotone (ref sample : List Char) :
    List.Pairwise (· ≤ ·) ((compare_same_length ref sample).1.map Variant.pos) :=
  List.chain'_iff_pairwise.mp (compareAux_chain ref sample 0)

/-- C9: `analyze` is a pure function of its two inputs; two calls on
identical inputs give identical outputs (same variants in the same order,
same counts, same risk score), including the aligner's tie-break. -/
theorem analyze_deterministic (r1 s1 r2 s2 : List Char)
    (hr : r1 = r2) (hs : s1 = s2) :
    analyze r1 s1 = analyze r2 s2 := by
  rw [hr, hs]

/-- Witness for C9 on a concrete repeated input pair. -/
theorem analyze_deterministic_witness :
    "AC".toList = "AC".toList ∧ "AGT".toList = "AGT".toList ∧
      analyze "AC".toList "AGT".toList = analyze "AC".toList "AGT".toList :=
  ⟨rfl, rfl, analyze_deterministic "AC".toList "AGT".toList "AC".toList "AGT".toList rfl rfl⟩

/-- C10: every emitted variant position `p` satisfies `1 ≤ p ≤ G + 1` where
`G` is the number of non-gap symbols of the aligned reference; moreover when
the aligned reference ends in a block of gaps (sample residues extending past
the last reference residue), all variants of that block are reported at the
single position `G + 1`. -/
theorem position_range (ref sample r0 g s0 s1 : List Char)
    (hr : ref = r0 ++ g) (hg : ∀ ch ∈ g, ch = '-')
    (hs : sample = s0 ++ s1) (hl : r0.length = s0.length) :
    (∀ v ∈ (compare_same_length ref sample).1,
        1 ≤ v.pos ∧ v.pos ≤ gapFree ref + 1) ∧
      (compare_same_length ref sample).1 =
        (compareAux r0 s0 0).1 ++ (compareAux g s1 (gapFree r0)).1 ∧
      ∀ v ∈ (compareAux g s1 (gapFree r0)).1, v.pos = gapFree ref + 1 := by
  subst hr hs
  refine ⟨?_, ?_, ?_⟩
  · intro v hv
    unfold compare_same_length at hv
    have := compareAux_pos_bounds (r0 ++ g) (s0 ++ s1) 0 v hv
    omega
  · unfold compare_same_length
    rw [compareAux_append_fst r0 s0 g s1 0 hl]
    simp
  · intro v hv
    rw [gapFree_append_gaps r0 g hg]
    exact compareAux_trailing_gaps g s1 (gapFree r0) hg v hv

/-- Witness for C10 on a reference with a trailing gap block. -/
theorem position_range_witness :
    "A--".toList = "A".toList ++ "--".toList ∧
      (∀ ch ∈ "--".toList, ch = '-') ∧
      "ATG".toList = "A".toList ++ "TG".toList ∧
      "A".toList.length = "A".toList.length ∧
      ((∀ v ∈ (compare_same_length "A--".toList "ATG".toList).1,
          1 ≤ v.pos ∧ v.pos ≤ gapFree "A--".toList + 1) ∧
        (compare_same_length "A--".toList "ATG".toList).1 =
          (compareAux "A".toList "A".toList 0).1 ++
            (compareAux "--".toList "TG".toList (gapFree "A".toList)).1 ∧
        ∀ v ∈ (compareAux "--".toList "TG".toList (gapFree "A".toList)).1,
          v.pos = gapFree "A--".toList + 1) :=
  ⟨by decide, by decide, by decide, rfl,
    position_range "A--".toList "ATG".toList "A".toList "--".toList "A".toList "TG".toList
      (by decide) (by decide) (by decide) rfl⟩

end Hackvotrix
